import Mathlib

set_option maxRecDepth 40000

/-!
Verification of the devfocus website-blocker core (src/cli.js).

The hosts-file manager of cli.js is embedded shallowly: the hosts document
is a `List Char`, the JavaScript string operations used by the source
(non-greedy global regex removal of the managed block, `split`, `trim`,
`Set` deduplication) are modelled as executable Lean functions on
character lists, and the persisted block list is modelled at the JSON
value level (JSON.stringify followed by JSON.parse is the identity on the
JSON values this tool writes).  Fallible I/O steps (hosts read/write, DNS
flush, block-list read) are modelled with `Except` and explicit success
flags.  All whitespace handled here is ASCII, which is the only
whitespace the tool itself ever emits.
-/

namespace DevFocus

/-- ASCII whitespace, as matched by the JavaScript regex class \s and by
String.prototype.trim on the ASCII range. -/
def wsChar (c : Char) : Bool :=
  c = ' ' || c = '\t' || c = '\n' || c = '\r' || c = '\x0b' || c = '\x0c'

/-- Constant MARKER_START from cli.js. -/
def MARKER_START : List Char := ("# WEBSITE_BLOCKER_START").data

/-- Constant MARKER_END from cli.js. -/
def MARKER_END : List Char := ("# WEBSITE_BLOCKER_END").data

/-- Constant BLOCK_IP from cli.js. -/
def BLOCK_IP : List Char := ("127.0.0.1").data

/-- Constant BLOCK_IP6 from cli.js. -/
def BLOCK_IP6 : List Char := ("::1").data

/-- The literal "www." tested by site.startsWith("www.") and prepended when
rendering the managed block. -/
def wwwPre : List Char := ("www.").data

/-- Boolean test that `p` is an initial segment of `s`. -/
def beginsWith : List Char → List Char → Bool
  | [], _ => true
  | _ :: _, [] => false
  | p :: ps, c :: cs => (p == c) && beginsWith ps cs

/-- Proposition that `pat` occurs as a contiguous segment of `s`; this is
what JavaScript String.prototype.includes and a literal regex match test. -/
def SubSeg (pat s : List Char) : Prop := ∃ u v, s = u ++ pat ++ v

/-- Split `s` at the first occurrence of `pat`: returns the part before the
occurrence and the part after it, or `none` when `pat` does not occur. -/
def splitFirst (pat : List Char) : List Char → Option (List Char × List Char)
  | [] => if pat = [] then some ([], []) else none
  | c :: cs =>
    if beginsWith pat (c :: cs) then some ([], (c :: cs).drop pat.length)
    else
      match splitFirst pat cs with
      | some (a, b) => some (c :: a, b)
      | none => none

/-- Boolean containment test, the model of String.prototype.includes. -/
def hasSub (pat s : List Char) : Bool := (splitFirst pat s).isSome

/-- The first match of the regex MARKER_START[\s\S]*?MARKER_END in `s`,
decomposed as (before, inner, after): `s = before ++ MARKER_START ++ inner
++ MARKER_END ++ after`, the match being the earliest occurrence of the
start marker completed by the nearest following end marker. -/
def matchFirstBlock (s : List Char) : Option (List Char × List Char × List Char) :=
  match splitFirst MARKER_START s with
  | none => none
  | some (a, r) =>
    match splitFirst MARKER_END r with
    | none => none
    | some (m, b) => some (a, m, b)

/-- Drop a single leading newline, modelling the trailing \n? of the strip
regex in applyBlockList and clearHostsFile consuming the newline after the
end marker. -/
def dropLeadNl (s : List Char) : List Char :=
  match s with
  | [] => []
  | c :: t => if c = '\n' then t else c :: t

/-- Fuel-indexed worker for the global regex replacement that removes every
managed region: remove the first match (plus one trailing newline) and
continue scanning after it, exactly as a /g replace does. -/
def stripBlocksF : Nat → List Char → List Char
  | 0, s => s
  | fuel + 1, s =>
    match matchFirstBlock s with
    | none => s
    | some (a, _, b) => a ++ stripBlocksF fuel (dropLeadNl b)

/-- hostsContent.replace(new RegExp(MARKER_START[\s\S]*?MARKER_END\n?, g), "")
from applyBlockList and clearHostsFile.  The list length is always enough
fuel because every removed match is non-empty. -/
def stripBlocks (s : List Char) : List Char := stripBlocksF s.length s

/-- Fuel-indexed worker listing every match of the managed-block regex, as
String.prototype.match with the g flag does. -/
def allBlocksF : Nat → List Char → List (List Char)
  | 0, _ => []
  | fuel + 1, s =>
    match matchFirstBlock s with
    | none => []
    | some (_, m, b) => (MARKER_START ++ m ++ MARKER_END) :: allBlocksF fuel b

/-- All managed-block matches of the document, in order. -/
def allBlocks (s : List Char) : List (List Char) := allBlocksF s.length s

/-- blockSection.split("\n") of getBlockedWebsites: JavaScript split keeps
empty pieces, and the empty string splits to one empty piece. -/
def splitNl : List Char → List (List Char)
  | [] => [[]]
  | c :: cs =>
    if c = '\n' then [] :: splitNl cs
    else
      match splitNl cs with
      | [] => [[c]]
      | l :: ls => (c :: l) :: ls

/-- Array.prototype.join("\n") on a list of lines. -/
def joinNl : List (List Char) → List Char
  | [] => []
  | [l] => l
  | l :: ls => l ++ '\n' :: joinNl ls

/-- Worker for line.split(/\s+/): pieces between maximal whitespace runs,
including an empty piece at either end when the string starts or ends with
whitespace, matching the JavaScript regex split. -/
def swAux : List Char → List (List Char)
  | [] => [[]]
  | c :: cs =>
    if wsChar c then
      match cs with
      | [] => [] :: swAux cs
      | c' :: _ => if wsChar c' then swAux cs else [] :: swAux cs
    else
      match swAux cs with
      | [] => [[c]]
      | l :: ls => (c :: l) :: ls

/-- line.split(/\s+/) from getBlockedWebsites. -/
def jsSplitWs (l : List Char) : List (List Char) := swAux l

/-- Remove leading whitespace, the first half of String.prototype.trim. -/
def trimStart (l : List Char) : List Char := l.dropWhile wsChar

/-- Remove trailing whitespace, the second half of String.prototype.trim. -/
def trimEnd (l : List Char) : List Char := (l.reverse.dropWhile wsChar).reverse

/-- hostsContent.trim() from applyBlockList. -/
def jsTrim (l : List Char) : List Char := trimStart (trimEnd l)

/-- Worker for the spread of a JavaScript Set built from a list: keep the
first occurrence of each element, in order. -/
def dedupGo {α : Type} [DecidableEq α] (seen : List α) : List α → List α
  | [] => []
  | x :: xs => if x ∈ seen then dedupGo seen xs else x :: dedupGo (x :: seen) xs

/-- The spread [...new Set(list)]. -/
def dedupKeepFirst {α : Type} [DecidableEq α] (l : List α) : List α := dedupGo [] l

/-- The four resolution lines rendered for one site by applyBlockList. -/
def hostLines (site : List Char) : List (List Char) :=
  [BLOCK_IP ++ ' ' :: site,
   BLOCK_IP ++ ' ' :: (wwwPre ++ site),
   BLOCK_IP6 ++ ' ' :: site,
   BLOCK_IP6 ++ ' ' :: (wwwPre ++ site)]

/-- websites.flatMap(...) from applyBlockList. -/
def renderLines (ws : List (List Char)) : List (List Char) := ws.flatMap hostLines

/-- blockEntries from applyBlockList: the rendered lines joined by newlines. -/
def blockEntries (ws : List (List Char)) : List Char := joinNl (renderLines ws)

/-- The full managed block text (start marker, entries, end marker) without
the surrounding newlines. -/
def renderedBlock (ws : List (List Char)) : List Char :=
  MARKER_START ++ '\n' :: blockEntries ws ++ '\n' :: MARKER_END

/-- The pure content transformation of applyBlockList: strip every managed
region, trim the remainder, and when the block list is non-empty append a
freshly rendered block separated by one newline and followed by a final
newline. -/
def applyContent (doc : List Char) (ws : List (List Char)) : List Char :=
  if ws = [] then jsTrim (stripBlocks doc)
  else jsTrim (stripBlocks doc) ++ '\n' :: renderedBlock ws ++ ['\n']

/-- The pure content transformation of clearHostsFile: strip every managed
region and leave everything else unchanged. -/
def clearContent (doc : List Char) : List Char := stripBlocks doc

/-- hostsContent.match(regex)?.[0] || "" from getBlockedWebsites: the text
of the first managed-block match, or the empty string. -/
def blockSection (doc : List Char) : List Char :=
  match matchFirstBlock doc with
  | none => []
  | some (_, m, _) => MARKER_START ++ m ++ MARKER_END

/-- The line filter of getBlockedWebsites: keep lines that contain the IPv4
loopback token and are not marker lines. -/
def keepLine (l : List Char) : Bool :=
  hasSub BLOCK_IP l && !hasSub MARKER_START l && !hasSub MARKER_END l

/-- line.split(/\s+/)[1] from getBlockedWebsites. -/
def siteOf (l : List Char) : Option (List Char) := ((jsSplitWs l).drop 1).head?

/-- The candidate filter of getBlockedWebsites: keep defined, non-empty
candidates that do not start with "www.". -/
def siteKeep (o : Option (List Char)) : Option (List Char) :=
  o.bind (fun s => if s.isEmpty || beginsWith wwwPre s then none else some s)

/-- getBlockedWebsites from cli.js, as a pure function of the hosts
document: extract the first managed block, split into lines, keep address
lines, take the second whitespace-separated field, drop "www." candidates,
deduplicate. -/
def getBlockedWebsites (doc : List Char) : List (List Char) :=
  dedupKeepFirst
    ((((splitNl (blockSection doc)).filter keepLine).map siteOf).filterMap siteKeep)

/-- isFocusModeOn from cli.js: the blocked list extracted from the hosts
document is non-empty. -/
def isFocusModeOn (doc : List Char) : Bool := !(getBlockedWebsites doc).isEmpty

/-- A well-formed bare domain: non-empty, free of ASCII whitespace and of
the comment character used by the markers, and without a leading "www.".
The spec (sections 3 and 6) assumes domains are bare hostnames and that
marker collisions with ordinary content never occur. -/
def ValidDomain (d : List Char) : Prop :=
  d ≠ [] ∧ (∀ c ∈ d, wsChar c = false ∧ c ≠ '#') ∧ beginsWith wwwPre d = false

instance instDecidableValidDomain (d : List Char) : Decidable (ValidDomain d) := by
  unfold ValidDomain
  infer_instance

/-- The per-line computation of getBlockedWebsites fused into one step:
keep the line, extract the second field, apply the candidate filter. -/
def lineSite (l : List Char) : Option (List Char) :=
  if keepLine l then siteKeep (siteOf l) else none

/-- A line list contains a line contributing a bare blocked domain. -/
def hasBareDomainLine (b : List Char) : Bool :=
  (splitNl b).any (fun l => (lineSite l).isSome)

/-- Message ALL_EXISTS from cli.js. -/
def MESSAGES_ALL_EXISTS : String := "All provided websites are already in the block list."

/-- Message ADDED from cli.js. -/
def MESSAGES_ADDED : String := "Added websites to block list"

/-- Message DNS_FLUSHED from cli.js. -/
def MESSAGES_DNS_FLUSHED : String := "DNS cache flushed"

/-- Error BLOCKLIST_READ from cli.js. -/
def ERRORS_BLOCKLIST_READ : String := "Error reading block list"

/-- Error HOSTS_READ from cli.js. -/
def ERRORS_HOSTS_READ : String := "Error reading hosts file"

/-- Error HOSTS_WRITE from cli.js. -/
def ERRORS_HOSTS_WRITE : String :=
  "Failed to write to hosts file. Ensure the command is run with sudo on macOS/Linux or as Administrator on Windows."

/-- Outcome of addWebsites: the persisted write, if one happened, and the
console report. -/
structure AddOutcome where
  written : Option (List String)
  message : String
deriving DecidableEq

/-- The genuinely new websites of addWebsites: inputs not already in the
current list, deduplicated within the batch keeping first occurrences. -/
def newWebsites (current inputs : List String) : List String :=
  dedupKeepFirst (inputs.filter (fun s => !(current.contains s)))

/-- addWebsites from cli.js: when no genuinely new website remains, report
that all exist and do not write; otherwise append the new ones and write. -/
def addWebsites (current inputs : List String) : AddOutcome :=
  if newWebsites current inputs = [] then ⟨none, MESSAGES_ALL_EXISTS⟩
  else ⟨some (current ++ newWebsites current inputs), MESSAGES_ADDED⟩

/-- String-level JavaScript trim, applied by the add command to each
argument before calling addWebsites. -/
def jsTrimStr (s : String) : String := String.mk (jsTrim s.data)

/-- The add CLI command: trim every argument, then run addWebsites against
the current persisted list. -/
def addCommand (inputs current : List String) : AddOutcome :=
  addWebsites current (inputs.map jsTrimStr)

/-- JSON values, the parse result of JSON.parse in readBlockList. -/
inductive JsonVal where
  | null
  | bool (b : Bool)
  | num (n : Int)
  | str (s : String)
  | arr (xs : List JsonVal)
  | obj (fields : List (String × JsonVal))

/-- JavaScript truthiness of a JSON value. -/
def jsTruthy : JsonVal → Bool
  | .null => false
  | .bool b => b
  | .num n => n != 0
  | .str s => s != ""
  | .arr _ => true
  | .obj _ => true

/-- Object field lookup; JSON.parse keeps the last duplicate key, so the
last binding wins. -/
def lookupField (k : String) : List (String × JsonVal) → Option JsonVal
  | [] => none
  | (k', v) :: rest =>
    match lookupField k rest with
    | some v' => some v'
    | none => if k' = k then some v else none

/-- The property access parsed.websites: throws on JSON null, yields the
field on objects, and is undefined on every other value. -/
def getFieldWebsites : JsonVal → Except Unit (Option JsonVal)
  | .null => .error ()
  | .obj fs => .ok (lookupField ("websites") fs)
  | _ => .ok none

/-- The state of the persisted block-list file as seen by one read. -/
inductive BlocklistFile where
  | absent
  | ioError
  | unparsable
  | content (j : JsonVal)

/-- readBlockList from cli.js: a missing file yields the empty list, any
other I/O or parse failure is a read error, and otherwise the expression
JSON.parse(data).websites || [] is evaluated. -/
def readBlockList : BlocklistFile → Except String JsonVal
  | .absent => .ok (.arr [])
  | .ioError => .error ERRORS_BLOCKLIST_READ
  | .unparsable => .error ERRORS_BLOCKLIST_READ
  | .content j =>
    match getFieldWebsites j with
    | .error _ => .error ERRORS_BLOCKLIST_READ
    | .ok none => .ok (.arr [])
    | .ok (some v) => if jsTruthy v then .ok v else .ok (.arr [])

/-- The JSON encoding of a website list, as written by JSON.stringify. -/
def encodeWebsites (l : List String) : JsonVal := .arr (l.map .str)

/-- writeBlockList from cli.js at the JSON level: the file afterwards holds
the record with the single field websites.  JSON.stringify followed by
JSON.parse is the identity on such values. -/
def writeBlockList (l : List String) : BlocklistFile :=
  .content (.obj [(("websites"), encodeWebsites l)])

/-- Decoder for a JSON array of strings. -/
def decodeStringsAux : List JsonVal → Option (List String)
  | [] => some []
  | .str s :: rest => (decodeStringsAux rest).map (fun l => s :: l)
  | _ :: _ => none

/-- Decoder from a JSON value to a website list. -/
def decodeStrings : JsonVal → Option (List String)
  | .arr xs => decodeStringsAux xs
  | _ => none

/-- Discriminator for Except results. -/
def exceptOk {ε α : Type} : Except ε α → Bool
  | .ok _ => true
  | .error _ => false

/-- Result of running the platform DNS flush command. -/
def flushCmdResult (flushOk : Bool) : Except String Unit :=
  if flushOk then .ok () else .error ("flush failed")

/-- flushDnsCache from cli.js: run the platform command, catch any failure
and turn it into a console warning; the function itself never fails. -/
def flushDnsCache (flushOk : Bool) : List String :=
  match flushCmdResult flushOk with
  | .ok _ => [MESSAGES_DNS_FLUSHED]
  | .error e => [("Warning: Could not flush DNS cache: ") ++ e]

/-- readHostsFile from cli.js with an explicit success flag. -/
def readHostsFile (doc : List Char) (readOk : Bool) : Except String (List Char) :=
  if readOk then .ok doc else .error ERRORS_HOSTS_READ

/-- writeHostsFile from cli.js with an explicit success flag; on success
the hosts document afterwards holds exactly the given content. -/
def writeHostsFile (content : List Char) (writeOk : Bool) : Except String (List Char) :=
  if writeOk then .ok content else .error ERRORS_HOSTS_WRITE

/-- applyBlockList from cli.js as an effect pipeline: read the hosts file,
write the transformed content, then flush the DNS cache, returning the
written document and the console lines of the flush step. -/
def applyBlockList (doc : List Char) (ws : List (List Char))
    (readOk writeOk flushOk : Bool) : Except String (List Char × List String) := do
  let h ← readHostsFile doc readOk
  let written ← writeHostsFile (applyContent h ws) writeOk
  pure (written, flushDnsCache flushOk)

/-- clearHostsFile from cli.js as an effect pipeline. -/
def clearHostsFile (doc : List Char) (readOk writeOk flushOk : Bool) :
    Except String (List Char × List String) := do
  let h ← readHostsFile doc readOk
  let written ← writeHostsFile (clearContent h) writeOk
  pure (written, flushDnsCache flushOk)

/-- The two persistent stores touched by clearWebsites. -/
structure SysState where
  blocklist : List String
  hosts : List Char
deriving DecidableEq

/-- clearWebsites from cli.js: overwrite the persisted block list with the
empty list first, then run clearHostsFile; a hosts read or write failure
surfaces after the block list was already emptied. -/
def clearWebsites (st : SysState) (hostsReadOk hostsWriteOk : Bool) :
    SysState × Except String Unit :=
  if hostsReadOk then
    if hostsWriteOk then (⟨[], clearContent st.hosts⟩, Except.ok ())
    else (⟨[], st.hosts⟩, Except.error ERRORS_HOSTS_WRITE)
  else (⟨[], st.hosts⟩, Except.error ERRORS_HOSTS_READ)

/-- Characterization of the initial-segment test. -/
theorem beginsWith_iff (p s : List Char) : beginsWith p s = true ↔ ∃ t, s = p ++ t := by
  induction p generalizing s with
  | nil => simp [beginsWith]
  | cons a p' ih =>
    cases s with
    | nil => simp [beginsWith]
    | cons c s' =>
      simp only [beginsWith, Bool.and_eq_true, beq_iff_eq, ih, List.cons_append]
      constructor
      · rintro ⟨rfl, t, rfl⟩
        exact ⟨t, rfl⟩
      · rintro ⟨t, h⟩
        injection h with h1 h2
        exact ⟨h1.symm, t, h2⟩

/-- A segment occurrence in a cons is either at the head or further right. -/
theorem SubSeg_cons_iff (pat : List Char) (c : Char) (s : List Char) :
    SubSeg pat (c :: s) ↔ (∃ t, c :: s = pat ++ t) ∨ SubSeg pat s := by
  constructor
  · rintro ⟨u, v, h⟩
    cases u with
    | nil => exact Or.inl ⟨v, by simpa using h⟩
    | cons d u' =>
      injection h with h1 h2
      exact Or.inr ⟨u', v, h2⟩
  · rintro (⟨t, h⟩ | ⟨u, v, h⟩)
    · exact ⟨[], t, by simpa using h⟩
    · exact ⟨c :: u, v, by simp [h]⟩

/-- Occurrences are preserved by consing on the left. -/
theorem SubSeg.consLeft {pat s : List Char} (c : Char) (h : SubSeg pat s) :
    SubSeg pat (c :: s) := (SubSeg_cons_iff pat c s).mpr (Or.inr h)

/-- Occurrences are preserved by appending on the right. -/
theorem SubSeg.appendRight {pat s : List Char} (w : List Char) (h : SubSeg pat s) :
    SubSeg pat (s ++ w) := by
  obtain ⟨u, v, rfl⟩ := h
  exact ⟨u, v ++ w, by simp⟩

/-- The empty pattern occurs in every list. -/
theorem SubSeg_nil (s : List Char) : SubSeg [] s := ⟨s, [], by simp⟩

/-- A pattern occurring in the empty list is empty. -/
theorem SubSeg_nil_right {pat : List Char} (h : SubSeg pat []) : pat = [] := by
  obtain ⟨u, v, hs⟩ := h
  have := congrArg List.length hs
  simp at this
  exact List.eq_nil_of_length_eq_zero (by omega)

/-- Every character of an occurring pattern is a character of the string. -/
theorem SubSeg.memChar {pat s : List Char} {c : Char} (h : SubSeg pat s) (hc : c ∈ pat) :
    c ∈ s := by
  obtain ⟨u, v, rfl⟩ := h
  simp [List.mem_append, hc]

/-- Soundness of splitFirst: a successful split decomposes the string. -/
theorem splitFirst_eq_some (pat : List Char) {s a b : List Char}
    (h : splitFirst pat s = some (a, b)) : s = a ++ pat ++ b := by
  induction s generalizing a b with
  | nil =>
    by_cases hp : pat = []
    · subst hp
      simp [splitFirst] at h
      obtain ⟨rfl, rfl⟩ := h
      rfl
    · simp [splitFirst, hp] at h
  | cons c cs ih =>
    cases hb : beginsWith pat (c :: cs) with
    | true =>
      obtain ⟨t, ht⟩ := (beginsWith_iff pat (c :: cs)).mp hb
      simp [splitFirst, hb] at h
      obtain ⟨rfl, rfl⟩ := h
      have hd : (c :: cs).drop pat.length = t := by
        rw [ht]
        simp
      rw [hd, ht]
      simp
    | false =>
      simp only [splitFirst, hb, Bool.false_eq_true, if_false] at h
      cases hsp : splitFirst pat cs with
      | none => rw [hsp] at h; simp at h
      | some ab =>
        obtain ⟨a', b'⟩ := ab
        rw [hsp] at h
        simp only [Option.some.injEq, Prod.mk.injEq] at h
        obtain ⟨rfl, rfl⟩ := h
        have := ih hsp
        rw [this]
        simp

/-- Completeness direction: splitFirst fails exactly when the pattern does
not occur. -/
theorem splitFirst_none_iff (pat s : List Char) :
    splitFirst pat s = none ↔ ¬ SubSeg pat s := by
  induction s with
  | nil =>
    by_cases hp : pat = []
    · subst hp
      simp [splitFirst, SubSeg_nil]
    · simp [splitFirst, hp]
      intro h
      exact hp (SubSeg_nil_right h)
  | cons c cs ih =>
    cases hb : beginsWith pat (c :: cs) with
    | true =>
      obtain ⟨t, ht⟩ := (beginsWith_iff pat (c :: cs)).mp hb
      simp only [splitFirst, hb, if_true]
      constructor
      · intro h; simp at h
      · intro h
        exact absurd ⟨[], t, by simpa using ht⟩ h
    | false =>
      simp only [splitFirst, hb, Bool.false_eq_true, if_false]
      have hnotpre : ¬ ∃ t, c :: cs = pat ++ t := by
        intro ⟨t, ht⟩
        rw [(beginsWith_iff pat (c :: cs)).mpr ⟨t, ht⟩] at hb
        simp at hb
      cases hsp : splitFirst pat cs with
      | none =>
        simp only [true_iff]
        intro h
        rcases (SubSeg_cons_iff pat c cs).mp h with h' | h'
        · exact hnotpre h'
        · exact (ih.mp hsp) h'
      | some ab =>
        obtain ⟨a', b'⟩ := ab
        have : SubSeg pat cs := by
          by_contra hcon
          rw [ih.mpr hcon] at hsp
          simp at hsp
        simp
        exact this.consLeft c

/-- hasSub is false exactly when the pattern does not occur. -/
theorem hasSub_false_iff (pat s : List Char) : hasSub pat s = false ↔ ¬ SubSeg pat s := by
  unfold hasSub
  cases h : splitFirst pat s with
  | none => simpa using (splitFirst_none_iff pat s).mp h
  | some ab =>
    simp only [Option.isSome_some, Bool.true_eq_false, false_iff, not_not]
    by_contra hcon
    rw [(splitFirst_none_iff pat s).mpr hcon] at h
    simp at h

/-- hasSub is true exactly when the pattern occurs. -/
theorem hasSub_true_iff (pat s : List Char) : hasSub pat s = true ↔ SubSeg pat s := by
  rw [← not_iff_not, Bool.not_eq_true, hasSub_false_iff]

/-- Splitting an equation between two append forms at a distinguished
middle character. -/
theorem append_cons_eq_append {x y pat t : List Char} {c : Char}
    (h : x ++ c :: y = pat ++ t) :
    (∃ t', x = pat ++ t') ∨ (∃ p', pat = x ++ c :: p') := by
  induction x generalizing pat with
  | nil =>
    cases pat with
    | nil => exact Or.inl ⟨[], rfl⟩
    | cons p ps =>
      simp only [List.nil_append, List.cons_append] at h
      injection h with h1 h2
      exact Or.inr ⟨ps, by rw [h1]; rfl⟩
  | cons a x' ih =>
    cases pat with
    | nil => exact Or.inl ⟨a :: x', rfl⟩
    | cons p ps =>
      simp only [List.cons_append] at h
      injection h with h1 h2
      rcases ih h2 with ⟨t', ht'⟩ | ⟨p', hp'⟩
      · exact Or.inl ⟨t', by rw [h1, ht']; rfl⟩
      · exact Or.inr ⟨p', by rw [h1, hp']; rfl⟩

/-- An occurrence across an appended list with a distinguished middle
character missing from the pattern lies entirely on one side. -/
theorem SubSeg_split_at_char {pat : List Char} (x y : List Char) {c : Char}
    (hc : c ∉ pat) (h : SubSeg pat (x ++ c :: y)) : SubSeg pat x ∨ SubSeg pat y := by
  induction x with
  | nil =>
    simp only [List.nil_append] at h
    rcases (SubSeg_cons_iff pat c y).mp h with ⟨t, ht⟩ | hs
    · cases pat with
      | nil => exact Or.inl (SubSeg_nil [])
      | cons p ps =>
        injection ht with h1 _
        exact absurd (h1 ▸ List.mem_cons_self p ps) hc
    · exact Or.inr hs
  | cons d x' ih =>
    rw [List.cons_append] at h
    rcases (SubSeg_cons_iff pat d (x' ++ c :: y)).mp h with ⟨t, ht⟩ | hs
    · have ht2 : (d :: x') ++ c :: y = pat ++ t := by simpa using ht
      rcases append_cons_eq_append (x := d :: x') (c := c) (y := y) ht2 with
        ⟨t', ht'⟩ | ⟨p', hp'⟩
      · exact Or.inl ⟨[], t', by simpa using ht'⟩
      · refine absurd ?_ hc
        rw [hp']
        simp
    · exact (ih hs).imp (fun h2 => h2.consLeft d) id

/-- splitFirst at an exact leading occurrence of the pattern. -/
theorem splitFirst_self (pat y : List Char) (hp : pat ≠ []) :
    splitFirst pat (pat ++ y) = some ([], y) := by
  cases pat with
  | nil => exact absurd rfl hp
  | cons p ps =>
    have hb : beginsWith (p :: ps) ((p :: ps) ++ y) = true :=
      (beginsWith_iff _ _).mpr ⟨y, rfl⟩
    have hd : ((p :: ps) ++ y).drop (p :: ps).length = y := by simp
    rw [List.cons_append] at hb hd ⊢
    simp [splitFirst, hb, hd]

/-- splitFirst finds the marker placed right after a newline-terminated
portion free of the pattern, when the pattern itself has no newline. -/
theorem splitFirst_boundary (pat x y : List Char) (hnl : '\n' ∉ pat)
    (hns : ¬ SubSeg pat (x ++ ['\n'])) :
    splitFirst pat ((x ++ ['\n']) ++ pat ++ y) = some (x ++ ['\n'], y) := by
  have hp : pat ≠ [] := by
    rintro rfl
    exact hns (SubSeg_nil _)
  induction x with
  | nil =>
    have hb : beginsWith pat ('\n' :: (pat ++ y)) = false := by
      cases hbv : beginsWith pat ('\n' :: (pat ++ y)) with
      | false => rfl
      | true =>
        obtain ⟨t, ht⟩ := (beginsWith_iff _ _).mp hbv
        cases pat with
        | nil => exact absurd rfl hp
        | cons p ps =>
          injection ht with h1 _
          exact absurd (h1 ▸ List.mem_cons_self p ps) hnl
    show splitFirst pat ('\n' :: (pat ++ y)) = some (['\n'], y)
    simp [splitFirst, hb, splitFirst_self pat y hp]
  | cons d x' ih =>
    have hns' : ¬ SubSeg pat (x' ++ ['\n']) := by
      intro h2
      exact hns (h2.consLeft d)
    have hb : beginsWith pat (d :: ((x' ++ ['\n']) ++ pat ++ y)) = false := by
      cases hbv : beginsWith pat (d :: ((x' ++ ['\n']) ++ pat ++ y)) with
      | false => rfl
      | true =>
        obtain ⟨t, ht⟩ := (beginsWith_iff _ _).mp hbv
        have hsh : ((d :: x') ++ ['\n']) ++ pat ++ y = (d :: x') ++ '\n' :: (pat ++ y) := by
          simp
        rw [show d :: ((x' ++ ['\n']) ++ pat ++ y) = ((d :: x') ++ ['\n']) ++ pat ++ y by simp,
          hsh] at ht
        rcases append_cons_eq_append (x := d :: x') (c := '\n') ht with ⟨t', ht'⟩ | ⟨p', hp'⟩
        · exact absurd (SubSeg.appendRight ['\n'] ⟨[], t', by simpa using ht'⟩) hns
        · refine absurd ?_ hnl
          rw [hp']
          simp
    have hgoal : splitFirst pat (d :: ((x' ++ ['\n']) ++ pat ++ y))
        = some (d :: (x' ++ ['\n']), y) := by
      simp only [splitFirst, hb, Bool.false_eq_true, if_false, ih hns']
    rw [show ((d :: x') ++ ['\n']) ++ pat ++ y = d :: ((x' ++ ['\n']) ++ pat ++ y) by simp]
    rw [hgoal]
    simp

/-- Splitting at the first newline after a newline-free portion. -/
theorem splitNl_append_cons (a r : List Char) (ha : ∀ c ∈ a, c ≠ '\n') :
    splitNl (a ++ '\n' :: r) = a :: splitNl r := by
  induction a with
  | nil => simp [splitNl]
  | cons c a' ih =>
    have hc : c ≠ '\n' := ha c (List.mem_cons_self c a')
    have ih' := ih (fun d hd => ha d (List.mem_cons_of_mem c hd))
    rw [List.cons_append]
    simp only [splitNl, hc, if_false, ih']

/-- A newline-free list splits into one line. -/
theorem splitNl_noNl (a : List Char) (ha : ∀ c ∈ a, c ≠ '\n') : splitNl a = [a] := by
  induction a with
  | nil => rfl
  | cons c a' ih =>
    have hc : c ≠ '\n' := ha c (List.mem_cons_self c a')
    have ih' := ih (fun d hd => ha d (List.mem_cons_of_mem c hd))
    simp only [splitNl, hc, if_false, ih']

/-- Splitting a newline-join of newline-free lines followed by a newline
and a remainder recovers the lines. -/
theorem splitNl_joinNl (L : List (List Char)) (r : List Char)
    (hL : ∀ l ∈ L, ∀ c ∈ l, c ≠ '\n') (hne : L ≠ []) :
    splitNl (joinNl L ++ '\n' :: r) = L ++ splitNl r := by
  induction L with
  | nil => exact absurd rfl hne
  | cons l L' ih =>
    cases L' with
    | nil =>
      show splitNl (joinNl [l] ++ '\n' :: r) = [l] ++ splitNl r
      rw [show joinNl [l] = l from rfl]
      rw [splitNl_append_cons l r (hL l (List.mem_cons_self l []))]
      rfl
    | cons l2 L2 =>
      have hj : joinNl (l :: l2 :: L2) = l ++ '\n' :: joinNl (l2 :: L2) := rfl
      rw [hj]
      have hassoc : (l ++ '\n' :: joinNl (l2 :: L2)) ++ '\n' :: r
          = l ++ '\n' :: (joinNl (l2 :: L2) ++ '\n' :: r) := by simp
      rw [hassoc]
      rw [splitNl_append_cons l _ (hL l (List.mem_cons_self l _))]
      rw [ih (fun l' hl' => hL l' (List.mem_cons_of_mem l hl')) (by simp)]
      rfl

/-- Membership in a newline-join. -/
theorem mem_joinNl {c : Char} {L : List (List Char)} (h : c ∈ joinNl L) :
    c = '\n' ∨ ∃ l ∈ L, c ∈ l := by
  induction L with
  | nil => simp [joinNl] at h
  | cons l L' ih =>
    cases L' with
    | nil =>
      exact Or.inr ⟨l, List.mem_cons_self l [], h⟩
    | cons l2 L2 =>
      rw [show joinNl (l :: l2 :: L2) = l ++ '\n' :: joinNl (l2 :: L2) from rfl] at h
      rcases List.mem_append.mp h with h1 | h1
      · exact Or.inr ⟨l, List.mem_cons_self l _, h1⟩
      · rcases List.mem_cons.mp h1 with h2 | h2
        · exact Or.inl h2
        · rcases ih h2 with h3 | ⟨l', hl', hc⟩
          · exact Or.inl h3
          · exact Or.inr ⟨l', List.mem_cons_of_mem l hl', hc⟩

/-- The whitespace splitter never produces an empty piece list. -/
theorem swAux_ne_nil (l : List Char) : swAux l ≠ [] := by
  induction l with
  | nil => simp [swAux]
  | cons c cs ih =>
    cases hw : wsChar c with
    | true =>
      cases cs with
      | nil => simp [swAux, hw]
      | cons c' cs' =>
        cases hw' : wsChar c' with
        | true => simpa [swAux, hw, hw'] using ih
        | false => simp [swAux, hw, hw']
    | false =>
      cases hsw : swAux cs with
      | nil => exact absurd hsw ih
      | cons p ps => simp [swAux, hw, hsw]

/-- A whitespace-free list is a single whitespace-split piece. -/
theorem swAux_noWs (b : List Char) (hb : ∀ c ∈ b, wsChar c = false) : swAux b = [b] := by
  induction b with
  | nil => rfl
  | cons c b' ih =>
    have hc : wsChar c = false := hb c (List.mem_cons_self c b')
    have ih' := ih (fun d hd => hb d (List.mem_cons_of_mem c hd))
    simp only [swAux, hc, Bool.false_eq_true, if_false, ih']

/-- A whitespace-free portion extends the first whitespace-split piece. -/
theorem swAux_prepend (a r : List Char) (l : List Char) (ls : List (List Char))
    (ha : ∀ c ∈ a, wsChar c = false) (hr : swAux r = l :: ls) :
    swAux (a ++ r) = (a ++ l) :: ls := by
  induction a with
  | nil => simpa using hr
  | cons c a' ih =>
    have hc : wsChar c = false := ha c (List.mem_cons_self c a')
    have ih' := ih (fun d hd => ha d (List.mem_cons_of_mem c hd))
    rw [List.cons_append]
    simp only [swAux, hc, Bool.false_eq_true, if_false, ih']
    rfl

/-- Splitting a two-token line on whitespace. -/
theorem jsSplitWs_two_tokens (a b : List Char) (ha : ∀ c ∈ a, wsChar c = false)
    (hb : ∀ c ∈ b, wsChar c = false) (hbne : b ≠ []) :
    jsSplitWs (a ++ ' ' :: b) = [a, b] := by
  have hsep : swAux (' ' :: b) = [] :: [b] := by
    cases b with
    | nil => exact absurd rfl hbne
    | cons c' b' =>
      have hc' : wsChar c' = false := hb c' (List.mem_cons_self c' b')
      have hbb : swAux (c' :: b') = [c' :: b'] := swAux_noWs _ hb
      have h0 : swAux (' ' :: c' :: b')
          = if wsChar c' = true then swAux (c' :: b') else [] :: swAux (c' :: b') := rfl
      rw [h0, hc']
      simp [hbb]
  unfold jsSplitWs
  rw [swAux_prepend a (' ' :: b) [] [b] ha hsep]
  simp

/-- dropWhile is idempotent. -/
theorem dropWhile_idem (p : Char → Bool) (l : List Char) :
    (l.dropWhile p).dropWhile p = l.dropWhile p := by
  cases h : l.dropWhile p with
  | nil => simp
  | cons x xs =>
    have hx := List.head_dropWhile_not p (l := l) (by simp [h])
    simp only [h] at hx
    simp only [List.head_cons] at hx
    simp [List.dropWhile_cons, hx]

/-- Appending a whitespace character does not change trimEnd. -/
theorem trimEnd_append_ws (l : List Char) (c : Char) (hc : wsChar c = true) :
    trimEnd (l ++ [c]) = trimEnd l := by
  simp [trimEnd, List.dropWhile_cons, hc]

/-- trimStart and trimEnd commute. -/
theorem trimStart_trimEnd_comm (l : List Char) :
    trimEnd (trimStart l) = trimStart (trimEnd l) := by
  induction l with
  | nil => rfl
  | cons c cs ih =>
    have hrev : (c :: cs).reverse = cs.reverse ++ [c] := by simp
    cases hd : cs.reverse.dropWhile wsChar with
    | nil =>
      have hte : trimEnd cs = [] := by simp [trimEnd, hd]
      cases hw : wsChar c with
      | true =>
        have h1 : trimEnd (c :: cs) = [] := by
          simp [trimEnd, hrev, List.dropWhile_append, hd, hw]
        rw [show trimStart (c :: cs) = trimStart cs by simp [trimStart, List.dropWhile_cons, hw]]
        rw [ih, h1, hte]
      | false =>
        have h1 : trimEnd (c :: cs) = [c] := by
          simp [trimEnd, hrev, List.dropWhile_append, hd, hw]
        have h2 : trimStart (c :: cs) = c :: cs := by
          simp [trimStart, List.dropWhile_cons, hw]
        have h3 : trimStart [c] = [c] := by
          simp [trimStart, List.dropWhile_cons, hw]
        rw [h2, h1, h3]
    | cons d ds =>
      have hne : cs.reverse.dropWhile wsChar ≠ [] := by simp [hd]
      have h1 : trimEnd (c :: cs) = c :: trimEnd cs := by
        simp only [trimEnd, hrev, List.dropWhile_append, hd]
        simp [hd]
      cases hw : wsChar c with
      | true =>
        rw [show trimStart (c :: cs) = trimStart cs by simp [trimStart, List.dropWhile_cons, hw]]
        rw [ih, h1]
        rw [show trimStart (c :: trimEnd cs) = trimStart (trimEnd cs) by
          simp [trimStart, List.dropWhile_cons, hw]]
      | false =>
        rw [show trimStart (c :: cs) = c :: cs by simp [trimStart, List.dropWhile_cons, hw]]
        rw [h1]
        rw [show trimStart (c :: trimEnd cs) = c :: trimEnd cs by
          simp [trimStart, List.dropWhile_cons, hw]]

/-- trimStart is idempotent. -/
theorem trimStart_idem (l : List Char) : trimStart (trimStart l) = trimStart l :=
  dropWhile_idem wsChar l

/-- trimEnd is idempotent. -/
theorem trimEnd_idem (l : List Char) : trimEnd (trimEnd l) = trimEnd l := by
  simp [trimEnd, dropWhile_idem]

/-- The JavaScript trim is idempotent. -/
theorem jsTrim_idem (l : List Char) : jsTrim (jsTrim l) = jsTrim l := by
  unfold jsTrim
  rw [← trimStart_trimEnd_comm (trimStart (trimEnd l))]
  rw [trimStart_idem (trimEnd l)]
  rw [trimStart_trimEnd_comm (trimEnd l)]
  rw [trimEnd_idem l]

/-- Trimming after appending one newline undoes the append on a trimmed
list. -/
theorem jsTrim_append_nl (l : List Char) : jsTrim (jsTrim l ++ ['\n']) = jsTrim l := by
  unfold jsTrim
  rw [trimEnd_append_ws _ '\n' (by decide)]
  have := jsTrim_idem l
  unfold jsTrim at this
  exact this

/-- The trimmed list sits inside the original. -/
theorem jsTrim_context (l : List Char) : ∃ u v, l = u ++ jsTrim l ++ v := by
  refine ⟨(trimEnd l).takeWhile wsChar, (l.reverse.takeWhile wsChar).reverse, ?_⟩
  have h1 : l = trimEnd l ++ (l.reverse.takeWhile wsChar).reverse := by
    have : l.reverse = l.reverse.takeWhile wsChar ++ l.reverse.dropWhile wsChar := by
      rw [List.takeWhile_append_dropWhile]
    calc l = l.reverse.reverse := by rw [List.reverse_reverse]
    _ = (l.reverse.takeWhile wsChar ++ l.reverse.dropWhile wsChar).reverse := by rw [← this]
    _ = (l.reverse.dropWhile wsChar).reverse ++ (l.reverse.takeWhile wsChar).reverse := by
        rw [List.reverse_append]
    _ = trimEnd l ++ (l.reverse.takeWhile wsChar).reverse := rfl
  have h2 : trimEnd l = (trimEnd l).takeWhile wsChar ++ jsTrim l := by
    rw [show jsTrim l = (trimEnd l).dropWhile wsChar from rfl]
    rw [List.takeWhile_append_dropWhile]
  calc l = trimEnd l ++ (l.reverse.takeWhile wsChar).reverse := h1
  _ = ((trimEnd l).takeWhile wsChar ++ jsTrim l) ++ (l.reverse.takeWhile wsChar).reverse := by
      rw [← h2]
  _ = (trimEnd l).takeWhile wsChar ++ jsTrim l ++ (l.reverse.takeWhile wsChar).reverse := by
      rw [List.append_assoc]

/-- An occurrence inside the trimmed list is an occurrence in the original. -/
theorem SubSeg_of_jsTrim {pat l : List Char} (h : SubSeg pat (jsTrim l)) : SubSeg pat l := by
  obtain ⟨u, v, huv⟩ := jsTrim_context l
  obtain ⟨a, b, hab⟩ := h
  exact ⟨u ++ a, b ++ v, by rw [huv, hab]; simp⟩

/-- Membership after first-occurrence deduplication. -/
theorem dedupGo_mem {α : Type} [DecidableEq α] (seen l : List α) (a : α) :
    a ∈ dedupGo seen l ↔ a ∈ l ∧ a ∉ seen := by
  induction l generalizing seen with
  | nil => simp [dedupGo]
  | cons x xs ih =>
    by_cases hx : x ∈ seen
    · rw [show dedupGo seen (x :: xs) = dedupGo seen xs by simp [dedupGo, hx]]
      rw [ih]
      constructor
      · rintro ⟨h1, h2⟩
        exact ⟨List.mem_cons_of_mem x h1, h2⟩
      · rintro ⟨h1, h2⟩
        rcases List.mem_cons.mp h1 with rfl | h3
        · exact absurd hx h2
        · exact ⟨h3, h2⟩
    · rw [show dedupGo seen (x :: xs) = x :: dedupGo (x :: seen) xs by simp [dedupGo, hx]]
      constructor
      · intro h
        rcases List.mem_cons.mp h with rfl | h1
        · exact ⟨List.mem_cons_self a xs, hx⟩
        · obtain ⟨h2, h3⟩ := (ih (x :: seen)).mp h1
          exact ⟨List.mem_cons_of_mem x h2, fun hc => h3 (List.mem_cons_of_mem x hc)⟩
      · rintro ⟨h1, h2⟩
        rcases List.mem_cons.mp h1 with rfl | h3
        · exact List.mem_cons_self a _
        · by_cases hax : a = x
          · subst hax
            exact List.mem_cons_self a _
          · refine List.mem_cons_of_mem x ((ih (x :: seen)).mpr ⟨h3, ?_⟩)
            intro hc
            rcases List.mem_cons.mp hc with h4 | h4
            · exact hax h4
            · exact h2 h4

/-- Deduplication yields the empty list only from the empty list. -/
theorem dedupKeepFirst_eq_nil_iff {α : Type} [DecidableEq α] (l : List α) :
    dedupKeepFirst l = [] ↔ l = [] := by
  cases l with
  | nil => simp [dedupKeepFirst, dedupGo]
  | cons x xs => simp [dedupKeepFirst, dedupGo]

/-- Deduplication collapses per-element one-or-two-fold repetitions. -/
theorem dedupGo_flatMap_collapse {α : Type} [DecidableEq α] (f : α → List α)
    (D : List α) (hf : ∀ d ∈ D, f d = [d] ∨ f d = [d, d]) (seen : List α) :
    dedupGo seen (D.flatMap f) = dedupGo seen D := by
  induction D generalizing seen with
  | nil => simp
  | cons d D' ih =>
    have hd := hf d (List.mem_cons_self d D')
    have ih' := ih (fun x hx => hf x (List.mem_cons_of_mem d hx))
    rw [List.flatMap_cons]
    by_cases hseen : d ∈ seen
    · rcases hd with hd1 | hd1 <;>
        simp [hd1, dedupGo, hseen, ih']
    · rcases hd with hd1 | hd1 <;>
        simp [hd1, dedupGo, hseen, List.mem_cons_self, ih']

/-- filterMap distributes over flatMap. -/
theorem filterMap_flatMap {α β : Type} (L : List α) (f : α → List β) (g : β → Option β) :
    (L.flatMap f).filterMap g = L.flatMap (fun a => (f a).filterMap g) := by
  induction L with
  | nil => rfl
  | cons a L' ih => simp [List.flatMap_cons, List.filterMap_append, ih]

/-- The staged getBlockedWebsites pipeline is a single filterMap. -/
theorem pipeline_eq (ls : List (List Char)) :
    ((ls.filter keepLine).map siteOf).filterMap siteKeep = ls.filterMap lineSite := by
  induction ls with
  | nil => rfl
  | cons l ls' ih =>
    cases hk : keepLine l with
    | true =>
      cases hs : siteKeep (siteOf l) <;>
        simp [List.filter_cons, hk, List.filterMap_cons, lineSite, hs, ih]
    | false => simp [List.filter_cons, hk, List.filterMap_cons, lineSite, ih]

/-- Characters of a rendered resolution line come from the constants or
from the site. -/
theorem mem_hostLines_chars {d l : List Char} (hl : l ∈ hostLines d) {c : Char}
    (hc : c ∈ l) : c ∈ BLOCK_IP ∨ c ∈ BLOCK_IP6 ∨ c = ' ' ∨ c ∈ wwwPre ∨ c ∈ d := by
  simp only [hostLines, List.mem_cons, List.not_mem_nil, or_false] at hl
  rcases hl with rfl | rfl | rfl | rfl <;>
    · simp only [List.mem_append, List.mem_cons] at hc
      tauto

/-- A valid domain contains no hash character. -/
theorem ValidDomain.no_hash {d : List Char} (hv : ValidDomain d) : '#' ∉ d := by
  intro h
  exact (hv.2.1 '#' h).2 rfl

/-- A valid domain contains no newline. -/
theorem ValidDomain.no_nl {d : List Char} (hv : ValidDomain d) : '\n' ∉ d := by
  intro h
  have := (hv.2.1 '\n' h).1
  simp [wsChar] at this

/-- No rendered resolution line contains a hash character. -/
theorem hostLines_no_hash {d l : List Char} (hv : ValidDomain d) (hl : l ∈ hostLines d) :
    '#' ∉ l := by
  intro hc
  rcases mem_hostLines_chars hl hc with h | h | h | h | h
  · revert h; decide
  · revert h; decide
  · revert h; decide
  · revert h; decide
  · exact hv.no_hash h

/-- No rendered resolution line contains a newline. -/
theorem hostLines_no_nl {d l : List Char} (hv : ValidDomain d) (hl : l ∈ hostLines d) :
    ∀ c ∈ l, c ≠ '\n' := by
  intro c hc hrfl
  subst hrfl
  rcases mem_hostLines_chars hl hc with h | h | h | h | h
  · revert h; decide
  · revert h; decide
  · revert h; decide
  · revert h; decide
  · exact hv.no_nl h

/-- The joined block entries contain no hash character. -/
theorem blockEntries_no_hash {ws : List (List Char)} (hv : ∀ d ∈ ws, ValidDomain d) :
    '#' ∉ blockEntries ws := by
  intro h
  rcases mem_joinNl h with h1 | ⟨l, hl, hc⟩
  · simp at h1
  · obtain ⟨d, hd, hld⟩ := List.mem_flatMap.mp hl
    exact hostLines_no_hash (hv d hd) hld hc

/-- The rendered lines are newline-free. -/
theorem renderLines_no_nl {ws : List (List Char)} (hv : ∀ d ∈ ws, ValidDomain d) :
    ∀ l ∈ renderLines ws, ∀ c ∈ l, c ≠ '\n' := by
  intro l hl
  obtain ⟨d, hd, hld⟩ := List.mem_flatMap.mp hl
  exact hostLines_no_nl (hv d hd) hld

/-- Rendering a non-empty site list yields lines. -/
theorem renderLines_ne_nil {ws : List (List Char)} (h : ws ≠ []) : renderLines ws ≠ [] := by
  cases ws with
  | nil => exact absurd rfl h
  | cons d ws' => simp [renderLines, List.flatMap_cons, hostLines]

/-- Neither marker occurs in a rendered resolution line. -/
theorem hostLines_no_marker {d l : List Char} (hv : ValidDomain d) (hl : l ∈ hostLines d) :
    hasSub MARKER_START l = false ∧ hasSub MARKER_END l = false := by
  constructor
  · rw [hasSub_false_iff]
    intro hsub
    exact hostLines_no_hash hv hl (hsub.memChar (by decide))
  · rw [hasSub_false_iff]
    intro hsub
    exact hostLines_no_hash hv hl (hsub.memChar (by decide))

/-- The fused line computation on each of the four rendered lines of one
valid domain produces the bare domain once or twice. -/
theorem hostLines_filterMap {d : List Char} (hv : ValidDomain d) :
    (hostLines d).filterMap lineSite = [d] ∨ (hostLines d).filterMap lineSite = [d, d] := by
  have hdraw : ∀ c ∈ d, wsChar c = false := fun c hc => (hv.2.1 c hc).1
  have hdne : d ≠ [] := hv.1
  have hdemp : d.isEmpty = false := by
    cases d with
    | nil => exact absurd rfl hdne
    | cons x xs => rfl
  have hwwwd : ∀ c ∈ wwwPre ++ d, wsChar c = false := by
    intro c hc
    rcases List.mem_append.mp hc with h | h
    · have hw : ∀ c ∈ wwwPre, wsChar c = false := by decide
      exact hw c h
    · exact hdraw c h
  have hwwwne : wwwPre ++ d ≠ [] := by simp [wwwPre]
  have hipws : ∀ c ∈ BLOCK_IP, wsChar c = false := by decide
  have hip6ws : ∀ c ∈ BLOCK_IP6, wsChar c = false := by decide
  have hm1 := hostLines_no_marker hv (show BLOCK_IP ++ ' ' :: d ∈ hostLines d by
    simp [hostLines])
  have hm2 := hostLines_no_marker hv (show BLOCK_IP ++ ' ' :: (wwwPre ++ d) ∈ hostLines d by
    simp [hostLines])
  have hm3 := hostLines_no_marker hv (show BLOCK_IP6 ++ ' ' :: d ∈ hostLines d by
    simp [hostLines])
  have hm4 := hostLines_no_marker hv (show BLOCK_IP6 ++ ' ' :: (wwwPre ++ d) ∈ hostLines d by
    simp [hostLines])
  have hip1 : hasSub BLOCK_IP (BLOCK_IP ++ ' ' :: d) = true :=
    (hasSub_true_iff _ _).mpr ⟨[], ' ' :: d, rfl⟩
  have hip2 : hasSub BLOCK_IP (BLOCK_IP ++ ' ' :: (wwwPre ++ d)) = true :=
    (hasSub_true_iff _ _).mpr ⟨[], ' ' :: (wwwPre ++ d), rfl⟩
  have hk1 : keepLine (BLOCK_IP ++ ' ' :: d) = true := by
    simp [keepLine, hip1, hm1.1, hm1.2]
  have hk2 : keepLine (BLOCK_IP ++ ' ' :: (wwwPre ++ d)) = true := by
    simp [keepLine, hip2, hm2.1, hm2.2]
  have hs1 : siteOf (BLOCK_IP ++ ' ' :: d) = some d := by
    unfold siteOf
    rw [jsSplitWs_two_tokens BLOCK_IP d hipws hdraw hdne]
    rfl
  have hs2 : siteOf (BLOCK_IP ++ ' ' :: (wwwPre ++ d)) = some (wwwPre ++ d) := by
    unfold siteOf
    rw [jsSplitWs_two_tokens BLOCK_IP (wwwPre ++ d) hipws hwwwd hwwwne]
    rfl
  have hs3 : siteOf (BLOCK_IP6 ++ ' ' :: d) = some d := by
    unfold siteOf
    rw [jsSplitWs_two_tokens BLOCK_IP6 d hip6ws hdraw hdne]
    rfl
  have hs4 : siteOf (BLOCK_IP6 ++ ' ' :: (wwwPre ++ d)) = some (wwwPre ++ d) := by
    unfold siteOf
    rw [jsSplitWs_two_tokens BLOCK_IP6 (wwwPre ++ d) hip6ws hwwwd hwwwne]
    rfl
  have hkeepd : siteKeep (some d) = some d := by
    simp [siteKeep, hdemp, hv.2.2, hdne]
  have hkeepw : siteKeep (some (wwwPre ++ d)) = none := by
    have : beginsWith wwwPre (wwwPre ++ d) = true := (beginsWith_iff _ _).mpr ⟨d, rfl⟩
    simp [siteKeep, this]
  have hl1 : lineSite (BLOCK_IP ++ ' ' :: d) = some d := by
    simp [lineSite, hk1, hs1, hkeepd]
  have hl2 : lineSite (BLOCK_IP ++ ' ' :: (wwwPre ++ d)) = none := by
    simp [lineSite, hk2, hs2, hkeepw]
  have hl4 : lineSite (BLOCK_IP6 ++ ' ' :: (wwwPre ++ d)) = none := by
    unfold lineSite
    cases hk : keepLine (BLOCK_IP6 ++ ' ' :: (wwwPre ++ d)) with
    | true => simp [hs4, hkeepw]
    | false => simp
  cases hip3 : hasSub BLOCK_IP (BLOCK_IP6 ++ ' ' :: d) with
  | false =>
    have hl3 : lineSite (BLOCK_IP6 ++ ' ' :: d) = none := by
      have hk3 : keepLine (BLOCK_IP6 ++ ' ' :: d) = false := by
        simp [keepLine, hip3]
      simp [lineSite, hk3]
    left
    simp [hostLines, List.filterMap_cons, hl1, hl2, hl3, hl4]
  | true =>
    have hl3 : lineSite (BLOCK_IP6 ++ ' ' :: d) = some d := by
      have hk3 : keepLine (BLOCK_IP6 ++ ' ' :: d) = true := by
        simp [keepLine, hip3, hm3.1, hm3.2]
      simp [lineSite, hk3, hs3, hkeepd]
    right
    simp [hostLines, List.filterMap_cons, hl1, hl2, hl3, hl4]

/-- Fuel-independent value of the strip worker on the empty list. -/
theorem stripBlocksF_nil (f : Nat) : stripBlocksF f [] = [] := by
  cases f with
  | zero => rfl
  | succ n => rfl

/-- Fuel-independent value of the strip worker on a single newline. -/
theorem stripBlocksF_single_nl (f : Nat) : stripBlocksF f ['\n'] = ['\n'] := by
  cases f with
  | zero => rfl
  | succ n => rfl

/-- Fuel-independent value of the match-listing worker on the empty list. -/
theorem allBlocksF_nil (f : Nat) : allBlocksF f [] = [] := by
  cases f with
  | zero => rfl
  | succ n => rfl

/-- Fuel-independent value of the match-listing worker on a single newline. -/
theorem allBlocksF_single_nl (f : Nat) : allBlocksF f ['\n'] = [] := by
  cases f with
  | zero => rfl
  | succ n => rfl

/-- Without a start marker the strip worker is the identity at any fuel. -/
theorem stripBlocksF_of_none {s : List Char} (h : matchFirstBlock s = none) (f : Nat) :
    stripBlocksF f s = s := by
  cases f with
  | zero => rfl
  | succ n => simp [stripBlocksF, h]

/-- A document without the start marker is unchanged by stripBlocks. -/
theorem stripBlocks_of_noSub {s : List Char} (h : hasSub MARKER_START s = false) :
    stripBlocks s = s := by
  have hnone : splitFirst MARKER_START s = none := by
    cases h2 : splitFirst MARKER_START s with
    | none => rfl
    | some ab =>
      rw [hasSub, h2] at h
      simp at h
  exact stripBlocksF_of_none (by simp [matchFirstBlock, hnone]) s.length

/-- The start marker does not occur in the trimmed stripped document
followed by one newline. -/
theorem noSub_MS_trim {doc : List Char} (hS : hasSub MARKER_START (stripBlocks doc) = false) :
    ¬ SubSeg MARKER_START (jsTrim (stripBlocks doc) ++ ['\n']) := by
  intro h
  rcases SubSeg_split_at_char (jsTrim (stripBlocks doc)) []
      (show '\n' ∉ MARKER_START by decide) h with h1 | h1
  · exact (hasSub_false_iff _ _).mp hS (SubSeg_of_jsTrim h1)
  · exact absurd (SubSeg_nil_right h1) (by decide)

/-- The end marker does not occur in the newline-wrapped entry text. -/
theorem noSub_ME_inner {ws : List (List Char)} (hv : ∀ d ∈ ws, ValidDomain d) :
    ¬ SubSeg MARKER_END ('\n' :: blockEntries ws ++ ['\n']) := by
  intro h
  have h0 : SubSeg MARKER_END ([] ++ '\n' :: (blockEntries ws ++ ['\n'])) := by simpa using h
  rcases SubSeg_split_at_char [] (blockEntries ws ++ ['\n'])
      (show '\n' ∉ MARKER_END by decide) h0 with h1 | h1
  · exact absurd (SubSeg_nil_right h1) (by decide)
  · rcases SubSeg_split_at_char (blockEntries ws) []
        (show '\n' ∉ MARKER_END by decide) h1 with h2 | h2
    · exact blockEntries_no_hash hv (h2.memChar (by decide))
    · exact absurd (SubSeg_nil_right h2) (by decide)

/-- The first managed-block match of an applied document is exactly the
freshly appended block. -/
theorem matchFirstBlock_applyContent (doc : List Char) (ws : List (List Char))
    (hws : ws ≠ []) (hv : ∀ d ∈ ws, ValidDomain d)
    (hS : hasSub MARKER_START (stripBlocks doc) = false) :
    matchFirstBlock (applyContent doc ws)
      = some (jsTrim (stripBlocks doc) ++ ['\n'], '\n' :: blockEntries ws ++ ['\n'], ['\n']) := by
  have happ : applyContent doc ws
      = (jsTrim (stripBlocks doc) ++ ['\n']) ++ MARKER_START
        ++ ((('\n' :: blockEntries ws) ++ ['\n']) ++ MARKER_END ++ ['\n']) := by
    simp [applyContent, hws, renderedBlock]
  have h1 := splitFirst_boundary MARKER_START (jsTrim (stripBlocks doc))
    ((('\n' :: blockEntries ws) ++ ['\n']) ++ MARKER_END ++ ['\n'])
    (by decide) (noSub_MS_trim hS)
  have h2 := splitFirst_boundary MARKER_END ('\n' :: blockEntries ws) ['\n']
    (by decide) (noSub_ME_inner hv)
  rw [happ]
  simp only [matchFirstBlock, h1, h2]

/-- An applied document is non-empty. -/
theorem applyContent_ne_nil (doc : List Char) (ws : List (List Char)) (hws : ws ≠ []) :
    applyContent doc ws ≠ [] := by
  simp [applyContent, hws]

/-- Stripping an applied document leaves the trimmed remainder plus one
newline. -/
theorem stripBlocks_applyContent (doc : List Char) (ws : List (List Char))
    (hws : ws ≠ []) (hv : ∀ d ∈ ws, ValidDomain d)
    (hS : hasSub MARKER_START (stripBlocks doc) = false) :
    stripBlocks (applyContent doc ws) = jsTrim (stripBlocks doc) ++ ['\n'] := by
  have hM := matchFirstBlock_applyContent doc ws hws hv hS
  have hne := applyContent_ne_nil doc ws hws
  obtain ⟨k, hk⟩ : ∃ k, (applyContent doc ws).length = k + 1 := by
    cases h : applyContent doc ws with
    | nil => exact absurd h hne
    | cons a l => exact ⟨l.length, by simp [h]⟩
  show stripBlocksF (applyContent doc ws).length (applyContent doc ws) = _
  rw [hk]
  simp only [stripBlocksF, hM]
  rw [show dropLeadNl ['\n'] = [] from rfl]
  rw [stripBlocksF_nil]
  simp

/-- The applied document contains exactly one managed-block match, whose
text is the rendered block. -/
theorem allBlocks_applyContent (doc : List Char) (ws : List (List Char))
    (hws : ws ≠ []) (hv : ∀ d ∈ ws, ValidDomain d)
    (hS : hasSub MARKER_START (stripBlocks doc) = false) :
    allBlocks (applyContent doc ws) = [renderedBlock ws] := by
  have hM := matchFirstBlock_applyContent doc ws hws hv hS
  have hne := applyContent_ne_nil doc ws hws
  obtain ⟨k, hk⟩ : ∃ k, (applyContent doc ws).length = k + 1 := by
    cases h : applyContent doc ws with
    | nil => exact absurd h hne
    | cons a l => exact ⟨l.length, by simp [h]⟩
  unfold allBlocks
  rw [hk]
  simp only [allBlocksF, hM]
  rw [allBlocksF_single_nl]
  simp [renderedBlock]

/-- The blocked-domain extraction on an applied document recovers the
deduplicated site list. -/
theorem getBlocked_applyContent (doc : List Char) (ws : List (List Char))
    (hws : ws ≠ []) (hv : ∀ d ∈ ws, ValidDomain d)
    (hS : hasSub MARKER_START (stripBlocks doc) = false) :
    getBlockedWebsites (applyContent doc ws) = dedupKeepFirst ws := by
  have hM := matchFirstBlock_applyContent doc ws hws hv hS
  unfold getBlockedWebsites blockSection
  simp only [hM]
  have hsec : MARKER_START ++ ('\n' :: blockEntries ws ++ ['\n']) ++ MARKER_END
      = MARKER_START ++ '\n' :: (blockEntries ws ++ '\n' :: MARKER_END) := by simp
  rw [hsec]
  rw [splitNl_append_cons MARKER_START _ (by decide)]
  rw [show blockEntries ws = joinNl (renderLines ws) from rfl]
  rw [splitNl_joinNl (renderLines ws) MARKER_END (renderLines_no_nl hv) (renderLines_ne_nil hws)]
  rw [splitNl_noNl MARKER_END (by decide)]
  rw [pipeline_eq]
  have hms : lineSite MARKER_START = none := by decide
  have hme : lineSite MARKER_END = none := by decide
  rw [show (MARKER_START :: (renderLines ws ++ [MARKER_END])).filterMap lineSite
      = (renderLines ws).filterMap lineSite by
    simp [List.filterMap_cons, List.filterMap_append, hms, hme]]
  rw [show renderLines ws = ws.flatMap hostLines from rfl]
  rw [filterMap_flatMap]
  unfold dedupKeepFirst
  exact dedupGo_flatMap_collapse _ ws (fun d hd => hostLines_filterMap (hv d hd)) []

/-- A filterMap result is non-empty exactly when some element maps to a
defined value. -/
theorem filterMap_ne_nil_iff_any {α β : Type} (f : α → Option β) (l : List α) :
    l.filterMap f ≠ [] ↔ l.any (fun x => (f x).isSome) = true := by
  induction l with
  | nil => simp
  | cons x xs ih =>
    cases hf : f x with
    | none => simp [List.filterMap_cons, hf, ih]
    | some b => simp [List.filterMap_cons, hf]

/-- Decoding the string encoding recovers the list. -/
theorem decodeStringsAux_map (l : List String) :
    decodeStringsAux (l.map JsonVal.str) = some l := by
  induction l with
  | nil => rfl
  | cons s l' ih => simp [List.map_cons, decodeStringsAux, ih]

/-- C1: for every hosts document whose stripped form is free of the start
marker (the spec assumes marker collisions with ordinary content never
occur) and every non-empty sequence of valid bare domains, applying the
sequence and then extracting the currently blocked websites returns
exactly the bare domains of the sequence, deduplicated keeping first
occurrences, regardless of duplicates in the sequence. -/
theorem C1_apply_then_blocked (doc : List Char) (ws : List (List Char))
    (hws : ws ≠ []) (hv : ∀ d ∈ ws, ValidDomain d)
    (hS : hasSub MARKER_START (stripBlocks doc) = false) :
    getBlockedWebsites (applyContent doc ws) = dedupKeepFirst ws :=
  getBlocked_applyContent doc ws hws hv hS

/-- Witness for C1 at a concrete document and a duplicate-carrying list. -/
theorem C1_apply_then_blocked_witness :
    ([("example.com").data, ("example.com").data, ("a.com").data] : List (List Char)) ≠ [] ∧
    (∀ d ∈ [("example.com").data, ("example.com").data, ("a.com").data], ValidDomain d) ∧
    hasSub MARKER_START (stripBlocks (("127.0.0.1 localhost\n").data)) = false ∧
    getBlockedWebsites (applyContent (("127.0.0.1 localhost\n").data)
        [("example.com").data, ("example.com").data, ("a.com").data])
      = dedupKeepFirst [("example.com").data, ("example.com").data, ("a.com").data] :=
  ⟨by decide, by decide, by decide,
    C1_apply_then_blocked _ _ (by decide) (by decide) (by decide)⟩

/-- C2 counterexample: a document with a leading newline and no managed
block has that leading newline removed by apply-then-clear, a change to
non-managed content that is not trailing-newline normalization at the
managed-block boundary. -/
theorem C2_frame_counterexample :
    clearContent (applyContent (("\n127.0.0.1 localhost\n").data) [("example.com").data])
      = ("127.0.0.1 localhost\n").data ∧
    stripBlocks (("\n127.0.0.1 localhost\n").data) = ("\n127.0.0.1 localhost\n").data ∧
    ("127.0.0.1 localhost\n").data ≠ ("\n127.0.0.1 localhost\n").data :=
  ⟨by decide, by decide, by decide⟩

/-- C2 (amended): clear alone passes a document free of the start marker
through byte-for-byte; apply normalizes the non-managed remainder with a
full JavaScript trim at both ends, so clear after apply yields exactly the
trimmed stripped original plus a single trailing newline. -/
theorem C2_clear_frame_amended (doc : List Char) (ws : List (List Char))
    (hws : ws ≠ []) (hv : ∀ d ∈ ws, ValidDomain d)
    (hS : hasSub MARKER_START (stripBlocks doc) = false) :
    (hasSub MARKER_START doc = false → clearContent doc = doc) ∧
    clearContent (applyContent doc ws) = jsTrim (stripBlocks doc) ++ ['\n'] :=
  ⟨fun h => stripBlocks_of_noSub h, stripBlocks_applyContent doc ws hws hv hS⟩

/-- Witness for the amended C2 at a concrete document and list. -/
theorem C2_clear_frame_amended_witness :
    clearContent (("127.0.0.1 localhost\n").data) = ("127.0.0.1 localhost\n").data ∧
    clearContent (applyContent (("127.0.0.1 localhost\n").data) [("a.com").data])
      = jsTrim (stripBlocks (("127.0.0.1 localhost\n").data)) ++ ['\n'] :=
  ⟨(C2_clear_frame_amended (("127.0.0.1 localhost\n").data) [("a.com").data]
      (by decide) (by decide) (by decide)).1 (by decide),
   (C2_clear_frame_amended (("127.0.0.1 localhost\n").data) [("a.com").data]
      (by decide) (by decide) (by decide)).2⟩

/-- C3 counterexample: the add command stores a domain given with a
leading "www." verbatim, so the persisted list can contain an entry
starting with "www.". -/
theorem C3_www_stored_counterexample :
    (addCommand [("www.example.com" : String)] []).written
      = some [("www.example.com" : String)] ∧
    beginsWith wwwPre (("www.example.com").data) = true :=
  ⟨by decide, by decide⟩

/-- C3 (amended): add stores its (trimmed) inputs verbatim, without
stripping any "www." prefix: a successful write persists exactly the union
of the current list and the inputs; the manager expands each stored domain
into a "www." variant only when rendering the managed block. -/
theorem C3_add_stores_verbatim :
    (∀ current inputs l, addWebsites current inputs = ⟨some l, MESSAGES_ADDED⟩ →
      ∀ s, s ∈ l ↔ s ∈ current ∨ s ∈ inputs) ∧
    (∀ ws d, d ∈ ws → (BLOCK_IP ++ ' ' :: (wwwPre ++ d)) ∈ renderLines ws) := by
  constructor
  · intro current inputs l h s
    unfold addWebsites at h
    by_cases hnw : newWebsites current inputs = []
    · simp [hnw] at h
    · simp only [hnw, if_false, AddOutcome.mk.injEq, Option.some.injEq] at h
      rw [← h.1]
      rw [List.mem_append]
      unfold newWebsites dedupKeepFirst
      rw [dedupGo_mem]
      simp only [List.mem_filter, List.not_mem_nil, not_false_iff, and_true]
      constructor
      · rintro (h1 | ⟨h1, _⟩)
        · exact Or.inl h1
        · exact Or.inr h1
      · rintro (h1 | h1)
        · exact Or.inl h1
        · by_cases hcur : s ∈ current
          · exact Or.inl hcur
          · refine Or.inr ⟨h1, ?_⟩
            simp [hcur]
  · intro ws d hd
    unfold renderLines
    rw [List.mem_flatMap]
    exact ⟨d, hd, by simp [hostLines]⟩

/-- Witness for the amended C3 at concrete lists. -/
theorem C3_add_stores_verbatim_witness :
    (("www.example.com" : String) ∈ [("www.example.com" : String)] ↔
      ("www.example.com" : String) ∈ ([] : List String) ∨
        ("www.example.com" : String) ∈ [("www.example.com" : String)]) ∧
    (BLOCK_IP ++ ' ' :: (wwwPre ++ ("a.com").data)) ∈ renderLines [("a.com").data] :=
  ⟨C3_add_stores_verbatim.1 [] [("www.example.com")] [("www.example.com")] (by decide)
      ("www.example.com"),
   C3_add_stores_verbatim.2 [("a.com").data] (("a.com").data) (by decide)⟩

/-- C4: under the same well-formedness assumptions as C1, apply is
idempotent and the twice-applied document contains exactly one
managed-block match, whose text is the freshly rendered block for the
given sequence; apply removes every start-to-nearest-end region before
appending. -/
theorem C4_apply_idempotent (doc : List Char) (ws : List (List Char))
    (hws : ws ≠ []) (hv : ∀ d ∈ ws, ValidDomain d)
    (hS : hasSub MARKER_START (stripBlocks doc) = false) :
    applyContent (applyContent doc ws) ws = applyContent doc ws ∧
    allBlocks (applyContent (applyContent doc ws) ws) = [renderedBlock ws] := by
  have hstrip := stripBlocks_applyContent doc ws hws hv hS
  have hid : applyContent (applyContent doc ws) ws = applyContent doc ws := by
    show (if ws = [] then jsTrim (stripBlocks (applyContent doc ws))
      else jsTrim (stripBlocks (applyContent doc ws)) ++ '\n' :: renderedBlock ws ++ ['\n'])
      = applyContent doc ws
    rw [hstrip, jsTrim_append_nl]
    rfl
  refine ⟨hid, ?_⟩
  rw [hid]
  exact allBlocks_applyContent doc ws hws hv hS

/-- Witness for C4 at a concrete document and list. -/
theorem C4_apply_idempotent_witness :
    applyContent (applyContent (("127.0.0.1 localhost\n").data) [("a.com").data])
        [("a.com").data]
      = applyContent (("127.0.0.1 localhost\n").data) [("a.com").data] ∧
    allBlocks (applyContent (applyContent (("127.0.0.1 localhost\n").data) [("a.com").data])
        [("a.com").data])
      = [renderedBlock [("a.com").data]] :=
  C4_apply_idempotent (("127.0.0.1 localhost\n").data) [("a.com").data]
    (by decide) (by decide) (by decide)

/-- C5 counterexample: a parsable record without a websites field is read
back as the empty list, not as a read error. -/
theorem C5_shape_counterexample :
    readBlockList (BlocklistFile.content (JsonVal.obj [])) = Except.ok (JsonVal.arr []) ∧
    exceptOk (readBlockList (BlocklistFile.content (JsonVal.obj []))) = true :=
  ⟨rfl, rfl⟩

/-- C5 (amended): a missing file reads as the empty list; I/O failures,
unparsable content and the JSON document null are read errors; every other
parse result succeeds, yielding the websites field when it is truthy and
the empty list otherwise, with no validation of its shape. -/
theorem C5_readBlockList_behavior :
    readBlockList BlocklistFile.absent = Except.ok (JsonVal.arr []) ∧
    exceptOk (readBlockList BlocklistFile.ioError) = false ∧
    exceptOk (readBlockList BlocklistFile.unparsable) = false ∧
    exceptOk (readBlockList (BlocklistFile.content JsonVal.null)) = false ∧
    (∀ j : JsonVal, j ≠ JsonVal.null →
      exceptOk (readBlockList (BlocklistFile.content j)) = true) := by
  refine ⟨rfl, rfl, rfl, rfl, ?_⟩
  intro j hj
  cases j with
  | null => exact absurd rfl hj
  | bool b => rfl
  | num n => rfl
  | str s => rfl
  | arr xs => rfl
  | obj fs =>
    show exceptOk (readBlockList (BlocklistFile.content (JsonVal.obj fs))) = true
    unfold readBlockList getFieldWebsites
    cases hl : lookupField ("websites") fs with
    | none => simp [hl, exceptOk]
    | some v =>
      cases ht : jsTruthy v with
      | true => simp [hl, ht, exceptOk]
      | false => simp [hl, ht, exceptOk]

/-- Witness for the amended C5 at a concrete non-null parse result. -/
theorem C5_readBlockList_behavior_witness :
    exceptOk (readBlockList (BlocklistFile.content (JsonVal.num 5))) = true :=
  C5_readBlockList_behavior.2.2.2.2 (JsonVal.num 5) (fun h => JsonVal.noConfusion h)

/-- C6 counterexample: in a document whose first managed region is empty
and whose second managed region holds a domain line, the document contains
a non-empty managed block, yet the focus-mode query, which inspects only
the first match, reports focus mode off. -/
theorem C6_first_block_counterexample :
    isFocusModeOn (("# WEBSITE_BLOCKER_START\n# WEBSITE_BLOCKER_END\n# WEBSITE_BLOCKER_START\n127.0.0.1 a.com\n# WEBSITE_BLOCKER_END\n").data) = false ∧
    (allBlocks (("# WEBSITE_BLOCKER_START\n# WEBSITE_BLOCKER_END\n# WEBSITE_BLOCKER_START\n127.0.0.1 a.com\n# WEBSITE_BLOCKER_END\n").data)).any
        hasBareDomainLine = true :=
  ⟨by decide, by decide⟩

/-- C6 (amended): focus mode is derived, never stored: it is a pure
function of the document, true exactly when the extracted blocked-domain
list is non-empty, which holds exactly when the FIRST managed region of
the document contains a bare-domain line. -/
theorem C6_focus_derived (doc : List Char) :
    (isFocusModeOn doc = true ↔ getBlockedWebsites doc ≠ []) ∧
    (isFocusModeOn doc = true ↔ hasBareDomainLine (blockSection doc) = true) := by
  have h1 : isFocusModeOn doc = true ↔ getBlockedWebsites doc ≠ [] := by
    unfold isFocusModeOn
    cases h : getBlockedWebsites doc with
    | nil => simp [h]
    | cons a l => simp [h]
  refine ⟨h1, h1.trans ?_⟩
  unfold getBlockedWebsites hasBareDomainLine
  rw [pipeline_eq]
  constructor
  · intro h
    have hX : (splitNl (blockSection doc)).filterMap lineSite ≠ [] :=
      fun h0 => h ((dedupKeepFirst_eq_nil_iff _).mpr h0)
    exact (filterMap_ne_nil_iff_any _ _).mp hX
  · intro h h0
    have hX := (dedupKeepFirst_eq_nil_iff _).mp h0
    exact absurd hX ((filterMap_ne_nil_iff_any _ _).mpr h)

/-- C7: when every input, after trimming, is already in the current block
list, the add command performs no persisted write and reports that all
provided websites are already present. -/
theorem C7_add_noop (current inputs : List String)
    (h : ∀ s ∈ inputs, jsTrimStr s ∈ current) :
    addCommand inputs current = ⟨none, MESSAGES_ALL_EXISTS⟩ := by
  unfold addCommand addWebsites
  have hf : (inputs.map jsTrimStr).filter (fun s => !(current.contains s)) = [] := by
    rw [List.filter_eq_nil_iff]
    intro s hs
    obtain ⟨s0, hs0, rfl⟩ := List.mem_map.mp hs
    have hmem := h s0 hs0
    simp [hmem]
  have hnw : newWebsites current (inputs.map jsTrimStr) = [] := by
    unfold newWebsites
    rw [hf]
    rfl
  simp [hnw]

/-- Witness for C7 with an input needing trimming. -/
theorem C7_add_noop_witness :
    addCommand [(" a.com " : String)] [("a.com" : String)] = ⟨none, MESSAGES_ALL_EXISTS⟩ :=
  C7_add_noop [("a.com")] [(" a.com ")] (by decide)

/-- C8: saving any website list, the empty one included, and loading again
returns the same list: the read succeeds with the stored websites value,
and decoding it recovers the list. -/
theorem C8_save_load_roundtrip (l : List String) :
    readBlockList (writeBlockList l) = Except.ok (encodeWebsites l) ∧
    decodeStrings (encodeWebsites l) = some l := by
  constructor
  · rfl
  · simp [decodeStrings, encodeWebsites, decodeStringsAux_map]

/-- C9: a DNS-flush failure is caught inside flushDnsCache and turned into
a console warning; whenever the hosts read and write succeed, apply and
clear succeed for either flush outcome, writing the same document. -/
theorem C9_flush_failure_not_propagated (doc : List Char) (ws : List (List Char))
    (flushOk : Bool) :
    applyBlockList doc ws true true flushOk
      = Except.ok (applyContent doc ws, flushDnsCache flushOk) ∧
    clearHostsFile doc true true flushOk
      = Except.ok (clearContent doc, flushDnsCache flushOk) ∧
    flushDnsCache false = [("Warning: Could not flush DNS cache: flush failed")] :=
  ⟨rfl, rfl, rfl⟩

/-- C10: clearWebsites empties the persisted block list before touching
the hosts file, so when the hosts read or write fails the error surfaces
while the block list is already empty. -/
theorem C10_clear_not_atomic (st : SysState) (r w : Bool) (h : r = false ∨ w = false) :
    exceptOk (clearWebsites st r w).2 = false ∧ (clearWebsites st r w).1.blocklist = [] := by
  cases r with
  | true =>
    cases w with
    | true => rcases h with h | h <;> simp at h
    | false => exact ⟨rfl, rfl⟩
  | false =>
    cases w with
    | true => exact ⟨rfl, rfl⟩
    | false => exact ⟨rfl, rfl⟩

/-- Witness for C10 at a concrete state with a failing hosts read. -/
theorem C10_clear_not_atomic_witness :
    exceptOk (clearWebsites ⟨[("a.com")], ("127.0.0.1 localhost\n").data⟩ false true).2
      = false ∧
    (clearWebsites ⟨[("a.com")], ("127.0.0.1 localhost\n").data⟩ false true).1.blocklist
      = [] :=
  C10_clear_not_atomic _ false true (Or.inl rfl)

end DevFocus
